import Mathlib

/-!
Shallow embedding of `arch/riscv/lib/string.c` (`__memcpy` / `__memmove`):
string functions optimized for hardware which does not handle unaligned
memory accesses efficiently.

Memory is modelled as a total map from byte addresses (`Nat`) to byte
values (`Nat`, well-formed memories hold values `< 256`).  A machine word
is `bytes_long = sizeof(long) = 8` bytes on the RV64 build
(`BITS_PER_LONG = 64`), stored little-endian: a word load at address `a`
yields `Σ i < 8, m (a+i) * 256^i`, and a word store writes the low eight
base-256 digits of the value (truncation to `unsigned long` happens
byte by byte, which agrees with the C semantics of storing the value
modulo `2^64`).

Each loop of the C code becomes an executable recursive function working
on an explicit machine state `St` (memory, destination pointer, source
pointer, remaining count).  The loops that decrement the count by a word
per iteration are driven by a fuel argument initialised with the count
itself; the fuel is an upper bound on the iteration count, so it is never
exhausted, and the guard tests are exactly those of the C code.
-/

namespace RiscvString

/-- Byte-addressed memory: a total map from addresses to byte values. -/
def Mem : Type := Nat → Nat

/-- A well-formed machine memory holds a value `< 256` in every byte. -/
def ByteMem (m : Mem) : Prop := ∀ a, m a < 256

/-- `BITS_PER_LONG` on the riscv64 build of this file. -/
def BITS_PER_LONG : Nat := 64

/-- `static const unsigned int bytes_long = sizeof(long);` -/
def bytes_long : Nat := BITS_PER_LONG / 8

/-- `static const unsigned int mask = bytes_long - 1;` -/
def mask : Nat := bytes_long - 1

/-- `#define MIN_THRESHOLD (BITS_PER_LONG / 8 * 2)` -/
def MIN_THRESHOLD : Nat := BITS_PER_LONG / 8 * 2

/-- Store one byte: `*p = v`. -/
def writeByte (m : Mem) (a v : Nat) : Mem := fun x => if x = a then v else m x

/-- Little-endian read of `n` bytes starting at `a`, as one number. -/
def readBytes (m : Mem) : Nat → Nat → Nat
  | _, 0 => 0
  | a, n+1 => m a + 256 * readBytes m (a+1) n

/-- `s.as_ulong[0]`: little-endian word load of `bytes_long` bytes. -/
def readWord (m : Mem) (a : Nat) : Nat := readBytes m a bytes_long

/-- Little-endian store of the low `n` base-256 digits of `v` at `a`. -/
def writeBytes : Mem → Nat → Nat → Nat → Mem
  | m, _, _, 0 => m
  | m, a, v, n+1 => writeBytes (writeByte m a (v % 256)) (a+1) (v / 256) n

/-- `d.as_ulong[0] = v`: little-endian word store (truncates to 8 bytes). -/
def writeWord (m : Mem) (a v : Nat) : Mem := writeBytes m a v bytes_long

/-- The local state of `__memcpy`: memory, the two running pointers
`d.as_u8` and `s.as_u8`, and the remaining `count`. -/
structure St where
  mem : Mem
  d : Nat
  s : Nat
  c : Nat

/-- The trailing loop of `__memcpy`:
`copy_remainder: while (count--) *d.as_u8++ = *s.as_u8++;`
(an ascending byte-by-byte copy, each byte read from current memory). -/
def copy_remainder : Mem → Nat → Nat → Nat → Mem
  | m, _, _, 0 => m
  | m, d, s, n+1 => copy_remainder (writeByte m d (m s)) (d+1) (s+1) n

/-- The destination-alignment fixup loop of `__memcpy`:
`for (; d.as_uptr & mask; count--) *d.as_u8++ = *s.as_u8++;`
The loop guard is alignment of `d`; the recursion is on `count`, which
the loop strictly decrements.  (The C loop does not test `count`; every
call made by `__memcpy` has `count >= MIN_THRESHOLD`, which exceeds the
at most `mask` iterations needed, so the 0-fuel case is unreachable.) -/
def alignLoop : Mem → Nat → Nat → Nat → St
  | m, d, s, 0 => ⟨m, d, s, 0⟩
  | m, d, s, c+1 =>
    if d &&& mask = 0 then ⟨m, d, s, c+1⟩
    else alignLoop (writeByte m d (m s)) (d+1) (s+1) c

/-- The aligned word-copy loop of `__memcpy` (the `else` branch):
`for (; count >= bytes_long; count -= bytes_long) *d.as_ulong++ = *s.as_ulong++;`
The first argument is fuel bounding the iteration count. -/
def wordLoopF : Nat → Mem → Nat → Nat → Nat → St
  | 0, m, d, s, c => ⟨m, d, s, c⟩
  | f+1, m, d, s, c =>
    if c < bytes_long then ⟨m, d, s, c⟩
    else wordLoopF f (writeWord m d (readWord m s)) (d + bytes_long)
      (s + bytes_long) (c - bytes_long)

/-- Aligned word-copy loop with fuel `count` (enough for `count / 8`
iterations, each of which consumes at least one unit of count). -/
def wordCopyLoop (m : Mem) (d s c : Nat) : St := wordLoopF c m d s c

/-- The shifted word-copy loop of `__memcpy` (the `if (distance)` branch),
after `s.as_u8 -= distance` and the initial `next = s.as_ulong[0]` have
happened; `s` is the stepped-back source pointer:
```
for (; count >= bytes_long + mask; count -= bytes_long) {
        last = next;
        next = s.as_ulong[1];
        d.as_ulong[0] = last >> (distance * 8) |
                        next << ((bytes_long - distance) * 8);
        d.as_ulong++;
        s.as_ulong++;
}
```
The first argument is fuel bounding the iteration count. -/
def shiftLoopF : Nat → Mem → Nat → Nat → Nat → Nat → Nat → St
  | 0, m, d, s, c, _, _ => ⟨m, d, s, c⟩
  | f+1, m, d, s, c, distance, next =>
    if c < bytes_long + mask then ⟨m, d, s, c⟩
    else
      let last := next
      let nx := readWord m (s + bytes_long)
      shiftLoopF f
        (writeWord m d (last >>> (distance * 8) |||
          nx <<< ((bytes_long - distance) * 8)))
        (d + bytes_long) (s + bytes_long) (c - bytes_long) distance nx

/-- Shifted word-copy loop with fuel `count`. -/
def shiftLoop (m : Mem) (d s c distance next : Nat) : St :=
  shiftLoopF c m d s c distance next

/-- The word-wise part of `__memcpy` after `distance` has been computed:
`if (distance)` take the shifted word copy (with `s.as_u8 -= distance`
before, the `next = s.as_ulong[0]` snapshot, and `s.as_u8 += distance`
after the loop), else the direct word copy. -/
def memcpyRest (st1 : St) (distance : Nat) : St :=
  if distance ≠ 0 then
    let s2 := st1.s - distance
    let st2 := shiftLoop st1.mem st1.d s2 st1.c distance (readWord st1.mem s2)
    ⟨st2.mem, st2.d, st2.s + distance, st2.c⟩
  else
    wordCopyLoop st1.mem st1.d st1.s st1.c

/-- Everything `__memcpy` does before the `copy_remainder:` label: the
small-copy test against `MIN_THRESHOLD`, the destination alignment fixup
(skipped when `CONFIG_HAVE_EFFICIENT_UNALIGNED_ACCESS`, the `eff`
parameter, is set, leaving `distance = 0` so that the shifted branch is
never taken), then the word-wise copy. -/
def memcpyPhases (eff : Bool) (m : Mem) (dst src count : Nat) : St :=
  if count < MIN_THRESHOLD then ⟨m, dst, src, count⟩
  else
    let st1 := if eff then ⟨m, dst, src, count⟩ else alignLoop m dst src count
    memcpyRest st1 (if eff then 0 else st1.s &&& mask)

/-- `void *__memcpy(void *dest, const void *src, size_t count)`:
returns the final memory and the returned pointer (always `dest`). -/
def memcpy (eff : Bool) (m : Mem) (dst src count : Nat) : Mem × Nat :=
  let st := memcpyPhases eff m dst src count
  (copy_remainder st.mem st.d st.s st.c, dst)

/-- The backward byte-copy loop of `__memmove`:
`s = src + count; tmp = dest + count; while (count--) *--tmp = *--s;`
Write number `k` (counting from the end) stores byte `src + k` at
`dest + k`, descending, each byte read from current memory. -/
def backwardCopy : Mem → Nat → Nat → Nat → Mem
  | m, _, _, 0 => m
  | m, d, s, n+1 => backwardCopy (writeByte m (d + n) (m (s + n))) d s n

/-- `void *__memmove(void *dest, const void *src, size_t count)`. -/
def memmove (eff : Bool) (m : Mem) (dst src count : Nat) : Mem × Nat :=
  if dst < src ∨ src + count ≤ dst then memcpy eff m dst src count
  else if src < dst then (backwardCopy m dst src count, dst)
  else (m, dst)

/-- Instrumented copy of `shiftLoopF` that additionally records the byte
addresses of every source word read performed by the loop body
(`next = s.as_ulong[1]`, eight bytes at `s + bytes_long`). -/
def shiftLoopTF : Nat → Mem → Nat → Nat → Nat → Nat → Nat → St × List Nat
  | 0, m, d, s, c, _, _ => (⟨m, d, s, c⟩, [])
  | f+1, m, d, s, c, distance, next =>
    if c < bytes_long + mask then (⟨m, d, s, c⟩, [])
    else
      let nx := readWord m (s + bytes_long)
      let r := shiftLoopTF f
        (writeWord m d (next >>> (distance * 8) |||
          nx <<< ((bytes_long - distance) * 8)))
        (d + bytes_long) (s + bytes_long) (c - bytes_long) distance nx
      (r.1, ((List.range bytes_long).map (fun j => s + bytes_long + j)) ++ r.2)

/-- All source byte addresses read by the shifted word-copy path of
`__memcpy dst src count` (in the `!eff` configuration): the initial
snapshot `next = s.as_ulong[0]` at the stepped-back pointer, followed by
the reads of the loop body. -/
def shiftReadAddrs (m : Mem) (dst src count : Nat) : List Nat :=
  let st1 := alignLoop m dst src count
  let distance := st1.s &&& mask
  let s2 := st1.s - distance
  ((List.range bytes_long).map (fun j => s2 + j)) ++
    (shiftLoopTF st1.c st1.mem st1.d s2 st1.c distance
      (readWord st1.mem s2)).2

/-- Concrete well-formed memory used for witnesses: byte `a` holds
`a % 256`. -/
def byteIdMem : Mem := fun a => a % 256

theorem byteIdMem_lt : ByteMem byteIdMem := fun a => Nat.mod_lt a (by decide)

theorem writeByte_eq (m : Mem) (a v : Nat) : writeByte m a v a = v := if_pos rfl

theorem writeByte_ne (m : Mem) (a v x : Nat) (h : x ≠ a) :
    writeByte m a v x = m x := if_neg h

theorem ByteMem_writeByte {m : Mem} (hm : ByteMem m) {v : Nat} (hv : v < 256)
    (a : Nat) : ByteMem (writeByte m a v) := by
  intro x
  unfold writeByte
  by_cases h : x = a
  · rw [if_pos h]; exact hv
  · rw [if_neg h]; exact hm x

theorem readBytes_congr (n : Nat) : ∀ (m1 m2 : Mem) (a : Nat),
    (∀ i, i < n → m1 (a + i) = m2 (a + i)) →
    readBytes m1 a n = readBytes m2 a n := by
  induction n with
  | zero => intro m1 m2 a _; rfl
  | succ n ih =>
    intro m1 m2 a h
    show m1 a + 256 * readBytes m1 (a+1) n = m2 a + 256 * readBytes m2 (a+1) n
    have h0 : m1 a = m2 a := by simpa using h 0 (by omega)
    have h1 : readBytes m1 (a+1) n = readBytes m2 (a+1) n := by
      apply ih
      intro i hi
      have hx := h (i+1) (by omega)
      have e : a + (i+1) = a + 1 + i := by omega
      rwa [e] at hx
    rw [h0, h1]

theorem readBytes_lt (n : Nat) : ∀ (m : Mem) (a : Nat),
    (∀ i, i < n → m (a + i) < 256) → readBytes m a n < 256 ^ n := by
  induction n with
  | zero => intro m a _; show (0:Nat) < 256 ^ 0; norm_num
  | succ n ih =>
    intro m a h
    show m a + 256 * readBytes m (a+1) n < 256 ^ (n+1)
    have h0 : m a < 256 := by simpa using h 0 (by omega)
    have h1 : readBytes m (a+1) n < 256 ^ n := by
      apply ih
      intro i hi
      have hx := h (i+1) (by omega)
      have e : a + (i+1) = a + 1 + i := by omega
      rwa [e] at hx
    have hp : (256:Nat) ^ (n+1) = 256 ^ n * 256 := pow_succ 256 n
    omega

theorem readBytes_extract (n : Nat) : ∀ (m : Mem) (a : Nat),
    (∀ i, i < n → m (a + i) < 256) → ∀ j, j < n →
    readBytes m a n / 256 ^ j % 256 = m (a + j) := by
  induction n with
  | zero => intro m a _ j hj; omega
  | succ n ih =>
    intro m a h j hj
    show (m a + 256 * readBytes m (a+1) n) / 256 ^ j % 256 = m (a + j)
    match j with
    | 0 =>
      have h0 : m a < 256 := by simpa using h 0 (by omega)
      simp only [pow_zero, Nat.div_one]
      rw [Nat.mul_comm 256 (readBytes m (a+1) n), Nat.add_mul_mod_self_right,
        Nat.mod_eq_of_lt h0]
      simp
    | j+1 =>
      have hdiv : (m a + 256 * readBytes m (a+1) n) / 256 =
          readBytes m (a+1) n := by
        rw [Nat.add_mul_div_left _ _ (by omega : (0:Nat) < 256),
          Nat.div_eq_of_lt (by simpa using h 0 (by omega)), Nat.zero_add]
      have hsp : (256:Nat) ^ (j+1) = 256 * 256 ^ j := by
        rw [pow_succ, Nat.mul_comm]
      rw [hsp, ← Nat.div_div_eq_div_mul, hdiv]
      have hrec := ih m (a+1) (by
        intro i hi
        have hx := h (i+1) (by omega)
        have e : a + (i+1) = a + 1 + i := by omega
        rwa [e] at hx) j (by omega)
      rw [hrec]
      congr 1
      omega

theorem writeBytes_spec (n : Nat) : ∀ (m : Mem) (a v x : Nat),
    writeBytes m a v n x =
    if a ≤ x ∧ x < a + n then v / 256 ^ (x - a) % 256 else m x := by
  induction n with
  | zero =>
    intro m a v x
    rw [if_neg (by omega)]
    rfl
  | succ n ih =>
    intro m a v x
    show writeBytes (writeByte m a (v % 256)) (a+1) (v / 256) n x = _
    rw [ih]
    by_cases h1 : a + 1 ≤ x ∧ x < a + 1 + n
    · rw [if_pos h1, if_pos (by omega)]
      have ht : x - a = (x - (a+1)) + 1 := by omega
      rw [ht, pow_succ, Nat.mul_comm (256 ^ (x - (a+1))), ← Nat.div_div_eq_div_mul]
    · rw [if_neg h1]
      by_cases h2 : x = a
      · subst h2
        rw [writeByte_eq, if_pos (by omega)]
        simp
      · rw [writeByte_ne _ _ _ _ h2, if_neg (by omega)]

theorem ByteMem_writeBytes (n : Nat) : ∀ (m : Mem) (a v : Nat),
    ByteMem m → ByteMem (writeBytes m a v n) := by
  intro m a v hm x
  rw [writeBytes_spec]
  by_cases h : a ≤ x ∧ x < a + n
  · rw [if_pos h]; exact Nat.mod_lt _ (by omega)
  · rw [if_neg h]; exact hm x

theorem writeWord_spec (m : Mem) (a v x : Nat) :
    writeWord m a v x =
    if a ≤ x ∧ x < a + bytes_long then v / 256 ^ (x - a) % 256 else m x :=
  writeBytes_spec bytes_long m a v x

theorem ByteMem_writeWord {m : Mem} (hm : ByteMem m) (a v : Nat) :
    ByteMem (writeWord m a v) := ByteMem_writeBytes bytes_long m a v hm

theorem readWord_lt {m : Mem} (hm : ByteMem m) (a : Nat) :
    readWord m a < 256 ^ 8 :=
  readBytes_lt bytes_long m a (fun i _ => hm (a + i))

theorem two_pow_mul8 (t : Nat) : (2:Nat) ^ (t * 8) = 256 ^ t := by
  rw [Nat.mul_comm, Nat.pow_mul]

theorem lor_mul_two_pow {a : Nat} (b k : Nat) (h : a < 2 ^ k) :
    a ||| b * 2 ^ k = a + b * 2 ^ k := by
  apply Nat.eq_of_testBit_eq
  intro i
  rw [Nat.testBit_lor]
  by_cases hik : i < k
  · have ek : (2:Nat) ^ k = 2 ^ (k - i) * 2 ^ i := by
      rw [← pow_add]
      congr 1
      omega
    have e1 : b * 2 ^ k / 2 ^ i = b * 2 ^ (k - i) := by
      rw [ek, ← Nat.mul_assoc, Nat.mul_div_cancel _ (Nat.two_pow_pos i)]
    have e2 : b * 2 ^ (k - i) % 2 = 0 := by
      have : (2:Nat) ^ (k - i) = 2 ^ (k - i - 1) * 2 := by
        rw [← pow_succ]
        congr 1
        omega
      rw [this, ← Nat.mul_assoc, Nat.mul_mod_left]
    have e3 : (a + b * 2 ^ k) / 2 ^ i = a / 2 ^ i + b * 2 ^ (k - i) := by
      rw [ek, ← Nat.mul_assoc, Nat.add_mul_div_right _ _ (Nat.two_pow_pos i)]
    have e4 : (a / 2 ^ i + b * 2 ^ (k - i)) % 2 = a / 2 ^ i % 2 := by
      have : (2:Nat) ^ (k - i) = 2 ^ (k - i - 1) * 2 := by
        rw [← pow_succ]
        congr 1
        omega
      rw [this, ← Nat.mul_assoc, Nat.add_mul_mod_self_right]
    rw [Nat.testBit_to_div_mod, Nat.testBit_to_div_mod, Nat.testBit_to_div_mod,
      e1, e3, e4, e2]
    simp
  · have hlow : a.testBit i = false :=
      Nat.testBit_lt_two_pow
        (Nat.lt_of_lt_of_le h (Nat.pow_le_pow_right (by omega) (by omega)))
    have ei : (2:Nat) ^ i = 2 ^ k * 2 ^ (i - k) := by
      rw [← pow_add]
      congr 1
      omega
    have e1 : (a + b * 2 ^ k) / 2 ^ i = b / 2 ^ (i - k) := by
      rw [ei, ← Nat.div_div_eq_div_mul,
        Nat.add_mul_div_right _ _ (Nat.two_pow_pos k), Nat.div_eq_of_lt h,
        Nat.zero_add]
    have e2 : b * 2 ^ k / 2 ^ i = b / 2 ^ (i - k) := by
      rw [ei, ← Nat.div_div_eq_div_mul,
        Nat.mul_div_cancel _ (Nat.two_pow_pos k)]
    rw [hlow]
    simp only [Bool.false_or]
    rw [Nat.testBit_to_div_mod, Nat.testBit_to_div_mod, e1, e2]

/-- Byte `j` of the shift-merged word
`A >> (distance * 8) | B << ((bytes_long - distance) * 8)`:
the low `bytes_long - distance` bytes come from the high bytes of `A`,
the rest from the low bytes of `B` (little-endian composition). -/
theorem mergeWord_byte {A : Nat} (B : Nat) {dist j : Nat} (hA : A < 256 ^ 8)
    (h0 : 0 < dist) (h8 : dist < 8) (_hj : j < 8) :
    (A >>> (dist * 8) ||| B <<< ((8 - dist) * 8)) / 256 ^ j % 256 =
    if j < 8 - dist then A / 256 ^ (dist + j) % 256
    else B / 256 ^ (j - (8 - dist)) % 256 := by
  have eR : A >>> (dist * 8) = A / 256 ^ dist := by
    rw [Nat.shiftRight_eq_div_pow, two_pow_mul8]
  have eL : B <<< ((8 - dist) * 8) = B * 256 ^ (8 - dist) := by
    rw [Nat.shiftLeft_eq, two_pow_mul8]
  have hL : A / 256 ^ dist < 256 ^ (8 - dist) := by
    rw [Nat.div_lt_iff_lt_mul (Nat.pos_pow_of_pos dist (by omega)), ← pow_add]
    have e : 8 - dist + dist = 8 := by omega
    rw [e]
    exact hA
  have eV : A >>> (dist * 8) ||| B <<< ((8 - dist) * 8) =
      A / 256 ^ dist + B * 256 ^ (8 - dist) := by
    rw [eR, eL, ← two_pow_mul8 (8 - dist)]
    exact lor_mul_two_pow B ((8 - dist) * 8) (by rw [two_pow_mul8]; exact hL)
  rw [eV]
  by_cases hcase : j < 8 - dist
  · rw [if_pos hcase]
    have esplit : (256:Nat) ^ (8 - dist) = 256 ^ (8 - dist - j) * 256 ^ j := by
      rw [← pow_add]
      congr 1
      omega
    have e1 : (A / 256 ^ dist + B * 256 ^ (8 - dist)) / 256 ^ j =
        A / 256 ^ (dist + j) + B * 256 ^ (8 - dist - j) := by
      rw [esplit, ← Nat.mul_assoc,
        Nat.add_mul_div_right _ _ (Nat.pos_pow_of_pos j (by omega)),
        Nat.div_div_eq_div_mul, ← pow_add]
    rw [e1]
    have e2 : (256:Nat) ^ (8 - dist - j) = 256 ^ (8 - dist - j - 1) * 256 := by
      rw [← pow_succ]
      congr 1
      omega
    rw [e2, ← Nat.mul_assoc, Nat.add_mul_mod_self_right]
  · rw [if_neg hcase]
    have esplit : (256:Nat) ^ j = 256 ^ (8 - dist) * 256 ^ (j - (8 - dist)) := by
      rw [← pow_add]
      congr 1
      omega
    have e1 : (A / 256 ^ dist + B * 256 ^ (8 - dist)) / 256 ^ (8 - dist) = B := by
      rw [Nat.add_mul_div_right _ _ (Nat.pos_pow_of_pos _ (by omega)),
        Nat.div_eq_of_lt hL, Nat.zero_add]
    rw [esplit, ← Nat.div_div_eq_div_mul, e1]

theorem readWord_extract {m : Mem} {a : Nat}
    (hb : ∀ i, i < 8 → m (a + i) < 256) {j : Nat} (hj : j < 8) :
    readWord m a / 256 ^ j % 256 = m (a + j) :=
  readBytes_extract 8 m a hb j hj

theorem writeWord_spec8 (m : Mem) (a v x : Nat) :
    writeWord m a v x =
    if a ≤ x ∧ x < a + 8 then v / 256 ^ (x - a) % 256 else m x :=
  writeBytes_spec 8 m a v x

theorem readWord_lt8 {m : Mem} {a : Nat}
    (hb : ∀ i, i < 8 → m (a + i) < 256) : readWord m a < 256 ^ 8 :=
  readBytes_lt 8 m a hb

/-- Effect of the trailing byte loop when the bytes it reads are never
bytes it has already written (forward copy going up, or disjoint):
it copies `n` bytes of the original memory, ascending. -/
theorem copy_remainder_spec (n : Nat) : ∀ (m : Mem) (d s : Nat),
    (d ≤ s ∨ s + n ≤ d) → ∀ x,
    copy_remainder m d s n x =
    if d ≤ x ∧ x < d + n then m (s + (x - d)) else m x := by
  induction n with
  | zero => intro m d s _ x; rw [if_neg (by omega)]; rfl
  | succ n ih =>
    intro m d s hcond x
    show copy_remainder (writeByte m d (m s)) (d+1) (s+1) n x = _
    rw [ih _ _ _ (by omega)]
    by_cases h1 : d + 1 ≤ x ∧ x < d + 1 + n
    · rw [if_pos h1, if_pos (by omega)]
      have e : s + 1 + (x - (d+1)) = s + (x - d) := by omega
      rw [e, writeByte_ne _ _ _ _ (by omega)]
    · rw [if_neg h1]
      by_cases h2 : x = d
      · subst h2
        rw [writeByte_eq, if_pos (by omega)]
        congr 1
        omega
      · rw [writeByte_ne _ _ _ _ h2, if_neg (by omega)]

/-- The trailing byte loop only writes the destination range. -/
theorem copy_remainder_frame (n : Nat) : ∀ (m : Mem) (d s x : Nat),
    (x < d ∨ d + n ≤ x) → copy_remainder m d s n x = m x := by
  induction n with
  | zero => intro m d s x _; rfl
  | succ n ih =>
    intro m d s x hx
    show copy_remainder (writeByte m d (m s)) (d+1) (s+1) n x = m x
    rw [ih _ _ _ _ (by omega), writeByte_ne _ _ _ _ (by omega)]

theorem ByteMem_copy_remainder (n : Nat) : ∀ (m : Mem) (d s : Nat),
    ByteMem m → ByteMem (copy_remainder m d s n) := by
  induction n with
  | zero => intro m d s hm; exact hm
  | succ n ih =>
    intro m d s hm
    exact ih _ _ _ (ByteMem_writeByte hm (hm s) d)

/-- Effect of the backward byte loop of `__memmove` when the bytes it
reads are never bytes it has already written (`s ≤ d`, the overlap case
the loop exists for, or disjoint): it copies `n` bytes of the original
memory. -/
theorem backwardCopy_spec (n : Nat) : ∀ (m : Mem) (d s : Nat),
    (s ≤ d ∨ d + n ≤ s) → ∀ x,
    backwardCopy m d s n x =
    if d ≤ x ∧ x < d + n then m (s + (x - d)) else m x := by
  induction n with
  | zero => intro m d s _ x; rw [if_neg (by omega)]; rfl
  | succ n ih =>
    intro m d s hcond x
    show backwardCopy (writeByte m (d + n) (m (s + n))) d s n x = _
    rw [ih _ _ _ (by omega)]
    by_cases h1 : d ≤ x ∧ x < d + n
    · rw [if_pos h1, if_pos (by omega)]
      rw [writeByte_ne _ _ _ _ (by omega)]
    · rw [if_neg h1]
      by_cases h2 : x = d + n
      · subst h2
        rw [writeByte_eq, if_pos (by omega)]
        congr 1
        omega
      · rw [writeByte_ne _ _ _ _ h2, if_neg (by omega)]

/-- The backward byte loop only writes the destination range. -/
theorem backwardCopy_frame (n : Nat) : ∀ (m : Mem) (d s x : Nat),
    (x < d ∨ d + n ≤ x) → backwardCopy m d s n x = m x := by
  induction n with
  | zero => intro m d s x _; rfl
  | succ n ih =>
    intro m d s x hx
    show backwardCopy (writeByte m (d + n) (m (s + n))) d s n x = m x
    rw [ih _ _ _ _ (by omega), writeByte_ne _ _ _ _ (by omega)]

/-- The alignment fixup loop runs `(8 - d % 8) % 8` iterations (until the
destination pointer is word aligned) and behaves as a byte copy of that
many bytes; `count` never runs out because the caller guarantees
`count ≥ MIN_THRESHOLD`. -/
theorem alignLoop_spec : ∀ (c : Nat) (m : Mem) (d s : Nat),
    (8 - d % 8) % 8 ≤ c →
    alignLoop m d s c =
      ⟨copy_remainder m d s ((8 - d % 8) % 8), d + (8 - d % 8) % 8,
       s + (8 - d % 8) % 8, c - (8 - d % 8) % 8⟩ := by
  intro c
  induction c with
  | zero =>
    intro m d s h
    have ha : (8 - d % 8) % 8 = 0 := by omega
    rw [ha]
    show (⟨m, d, s, 0⟩ : St) = _
    simp [copy_remainder]
  | succ c ih =>
    intro m d s h
    have hmask : d &&& mask = d % 8 := by
      have e : mask = 2 ^ 3 - 1 := rfl
      rw [e, Nat.and_pow_two_sub_one_eq_mod]
    show (if d &&& mask = 0 then (⟨m, d, s, c+1⟩ : St)
      else alignLoop (writeByte m d (m s)) (d+1) (s+1) c) = _
    by_cases hd : d &&& mask = 0
    · rw [if_pos hd]
      rw [hmask] at hd
      have ha : (8 - d % 8) % 8 = 0 := by omega
      rw [ha]
      simp [copy_remainder]
    · rw [if_neg hd]
      rw [hmask] at hd
      rw [ih _ _ _ (by omega)]
      have ha : (8 - d % 8) % 8 = (8 - (d+1) % 8) % 8 + 1 := by omega
      simp only [St.mk.injEq]
      refine ⟨?_, by omega, by omega, by omega⟩
      rw [ha]
      rfl

/-- Pointer/count evolution and write footprint of the aligned word-copy
loop, independent of memory contents: it runs `c / 8` iterations and
leaves `c % 8` bytes, writing only `[d, d + c)`. -/
theorem wordLoopF_parts : ∀ (f c : Nat), c ≤ f → ∀ (m : Mem) (d s : Nat),
    (wordLoopF f m d s c).d = d + 8 * (c / 8) ∧
    (wordLoopF f m d s c).s = s + 8 * (c / 8) ∧
    (wordLoopF f m d s c).c = c % 8 ∧
    ∀ x, x < d ∨ d + c ≤ x → (wordLoopF f m d s c).mem x = m x := by
  intro f
  induction f with
  | zero =>
    intro c hc m d s
    have hc0 : c = 0 := by omega
    subst hc0
    exact ⟨by show d = d + 8 * (0 / 8); omega, by show s = s + 8 * (0 / 8); omega,
      rfl, fun x _ => rfl⟩
  | succ f ih =>
    intro c hc m d s
    have hbl : bytes_long = 8 := rfl
    have hunf : wordLoopF (f+1) m d s c =
        if c < bytes_long then (⟨m, d, s, c⟩ : St)
        else wordLoopF f (writeWord m d (readWord m s)) (d + bytes_long)
          (s + bytes_long) (c - bytes_long) := rfl
    rw [hunf]
    by_cases hsmall : c < bytes_long
    · rw [if_pos hsmall]
      rw [hbl] at hsmall
      refine ⟨by show d = d + 8 * (c / 8); omega,
        by show s = s + 8 * (c / 8); omega,
        by show c = c % 8; omega, fun x _ => rfl⟩
    · rw [if_neg hsmall]
      rw [hbl] at hsmall
      rw [hbl]
      obtain ⟨ihd, ihs, ihc, ihm⟩ :=
        ih (c - 8) (by omega) (writeWord m d (readWord m s)) (d + 8) (s + 8)
      refine ⟨by rw [ihd]; omega, by rw [ihs]; omega, by rw [ihc]; omega, ?_⟩
      intro x hx
      rw [ihm x (by omega), writeWord_spec8, if_neg (by omega)]

/-- Full effect of the aligned word-copy loop when source and destination
do not alias in the dangerous direction: the written bytes are the
original source bytes. -/
theorem wordLoopF_spec : ∀ (f c : Nat), c ≤ f → ∀ (m : Mem) (d s : Nat),
    ByteMem m → (d ≤ s ∨ s + c ≤ d) → ∀ x,
    (wordLoopF f m d s c).mem x =
    if d ≤ x ∧ x < d + 8 * (c / 8) then m (s + (x - d)) else m x := by
  intro f
  induction f with
  | zero =>
    intro c hc m d s _ _ x
    have hc0 : c = 0 := by omega
    subst hc0
    rw [if_neg (by omega)]
    rfl
  | succ f ih =>
    intro c hc m d s hm hcond x
    have hbl : bytes_long = 8 := rfl
    have hunf : wordLoopF (f+1) m d s c =
        if c < bytes_long then (⟨m, d, s, c⟩ : St)
        else wordLoopF f (writeWord m d (readWord m s)) (d + bytes_long)
          (s + bytes_long) (c - bytes_long) := rfl
    rw [hunf]
    by_cases hsmall : c < bytes_long
    · rw [if_pos hsmall]
      rw [hbl] at hsmall
      show m x = _
      rw [if_neg (by omega)]
    · rw [if_neg hsmall]
      rw [hbl] at hsmall
      rw [hbl]
      have hm2 : ByteMem (writeWord m d (readWord m s)) :=
        ByteMem_writeWord hm d (readWord m s)
      rw [ih (c - 8) (by omega) _ (d + 8) (s + 8) hm2 (by omega) x]
      by_cases h1 : d + 8 ≤ x ∧ x < d + 8 + 8 * ((c - 8) / 8)
      · rw [if_pos h1, if_pos (by omega)]
        have e : s + 8 + (x - (d + 8)) = s + (x - d) := by omega
        rw [e, writeWord_spec8, if_neg (by omega)]
      · rw [if_neg h1]
        by_cases h2 : d ≤ x ∧ x < d + 8
        · rw [writeWord_spec8, if_pos h2, if_pos (by omega)]
          exact readWord_extract (fun i _ => hm (s + i)) (by omega)
        · rw [writeWord_spec8, if_neg h2, if_neg (by omega)]

/-- Pointer/count evolution and write footprint of the shifted word-copy
loop, independent of memory contents: it runs `(c - 7) / 8` iterations
(the loop continues while `count >= bytes_long + mask = 15`), advancing
both pointers by a word and taking a word off `count` per iteration, and
writes only `[d, d + c)`. -/
theorem shiftLoopF_parts : ∀ (f c : Nat), c ≤ f →
    ∀ (m : Mem) (d s dist next : Nat),
    (shiftLoopF f m d s c dist next).d = d + 8 * ((c - 7) / 8) ∧
    (shiftLoopF f m d s c dist next).s = s + 8 * ((c - 7) / 8) ∧
    (shiftLoopF f m d s c dist next).c = c - 8 * ((c - 7) / 8) ∧
    ∀ x, x < d ∨ d + c ≤ x →
      (shiftLoopF f m d s c dist next).mem x = m x := by
  intro f
  induction f with
  | zero =>
    intro c hc m d s dist next
    have hc0 : c = 0 := by omega
    subst hc0
    exact ⟨by show d = d + 8 * ((0 - 7) / 8); omega,
      by show s = s + 8 * ((0 - 7) / 8); omega,
      by show (0:Nat) = 0 - 8 * ((0 - 7) / 8); omega, fun x _ => rfl⟩
  | succ f ih =>
    intro c hc m d s dist next
    have hbl : bytes_long = 8 := rfl
    have hmask : mask = 7 := rfl
    have hunf : shiftLoopF (f+1) m d s c dist next =
        if c < bytes_long + mask then (⟨m, d, s, c⟩ : St)
        else shiftLoopF f
          (writeWord m d (next >>> (dist * 8) |||
            readWord m (s + bytes_long) <<< ((bytes_long - dist) * 8)))
          (d + bytes_long) (s + bytes_long) (c - bytes_long) dist
          (readWord m (s + bytes_long)) := rfl
    rw [hunf]
    by_cases hsmall : c < bytes_long + mask
    · rw [if_pos hsmall]
      rw [hbl, hmask] at hsmall
      refine ⟨by show d = d + 8 * ((c - 7) / 8); omega,
        by show s = s + 8 * ((c - 7) / 8); omega,
        by show c = c - 8 * ((c - 7) / 8); omega, fun x _ => rfl⟩
    · rw [if_neg hsmall]
      rw [hbl, hmask] at hsmall
      rw [hbl]
      obtain ⟨ihd, ihs, ihc, ihm⟩ := ih (c - 8) (by omega)
        (writeWord m d (next >>> (dist * 8) |||
          readWord m (s + 8) <<< ((8 - dist) * 8)))
        (d + 8) (s + 8) dist (readWord m (s + 8))
      refine ⟨by rw [ihd]; omega, by rw [ihs]; omega, by rw [ihc]; omega, ?_⟩
      intro x hx
      rw [ihm x (by omega), writeWord_spec8, if_neg (by omega)]

/-- Full effect of the shifted word-copy loop.  `σ` is the original
contents of the source region; `next` is the running one-word look-ahead
whose bytes from position `dist` up agree with `σ` at `s + dist` up
(its lower bytes are shifted out and never used).  Provided the writes
never land on source bytes that are still to be read
(`d ≤ s + 8`, or the write range entirely above the read range), each
output word consists of the source bytes `σ (s + dist + i)`. -/
theorem shiftLoopF_spec : ∀ (f c : Nat), c ≤ f →
    ∀ (m σ : Mem) (d s dist next : Nat),
    0 < dist → dist < 8 →
    (∀ j, dist ≤ j → j < 8 → next / 256 ^ j % 256 = σ (s + j)) →
    next < 256 ^ 8 →
    (∀ a, s + 8 ≤ a → a < s + 8 * ((c - 7) / 8) + 8 → m a = σ a ∧ σ a < 256) →
    (d ≤ s + 8 ∨ s + 8 * ((c - 7) / 8) + 8 ≤ d) → ∀ x,
    (shiftLoopF f m d s c dist next).mem x =
    if d ≤ x ∧ x < d + 8 * ((c - 7) / 8)
      then σ (s + dist + (x - d)) else m x := by
  intro f
  induction f with
  | zero =>
    intro c hc m σ d s dist next _ _ _ _ _ _ x
    have hc0 : c = 0 := by omega
    subst hc0
    rw [if_neg (by omega)]
    rfl
  | succ f ih =>
    intro c hc m σ d s dist next hd0 hd8 hnext hA hσ hsafe x
    have hbl : bytes_long = 8 := rfl
    have hmask : mask = 7 := rfl
    have hunf : shiftLoopF (f+1) m d s c dist next =
        if c < bytes_long + mask then (⟨m, d, s, c⟩ : St)
        else shiftLoopF f
          (writeWord m d (next >>> (dist * 8) |||
            readWord m (s + bytes_long) <<< ((bytes_long - dist) * 8)))
          (d + bytes_long) (s + bytes_long) (c - bytes_long) dist
          (readWord m (s + bytes_long)) := rfl
    rw [hunf]
    by_cases hsmall : c < bytes_long + mask
    · rw [if_pos hsmall]
      rw [hbl, hmask] at hsmall
      show m x = _
      rw [if_neg (by omega)]
    · rw [if_neg hsmall]
      rw [hbl, hmask] at hsmall
      rw [hbl]
      -- the iteration count of the remaining loop
      have hn : (c - 7) / 8 = (c - 8 - 7) / 8 + 1 := by omega
      -- bytes under the look-ahead word are untouched source bytes
      have hrange : ∀ i, i < 8 → m (s + 8 + i) = σ (s + 8 + i) ∧
          σ (s + 8 + i) < 256 := by
        intro i hi
        exact hσ (s + 8 + i) (by omega) (by omega)
      have hnx : ∀ j, j < 8 →
          readWord m (s + 8) / 256 ^ j % 256 = σ (s + 8 + j) := by
        intro j hj
        rw [readWord_extract (fun i hi => by
          rw [(hrange i hi).1]; exact (hrange i hi).2) hj]
        exact (hrange j hj).1
      have hnxlt : readWord m (s + 8) < 256 ^ 8 :=
        readWord_lt8 (fun i hi => by
          rw [(hrange i hi).1]; exact (hrange i hi).2)
      set m2 := writeWord m d (next >>> (dist * 8) |||
        readWord m (s + 8) <<< ((8 - dist) * 8)) with hm2
      have hσ2 : ∀ a, s + 8 + 8 ≤ a → a < s + 8 + 8 * ((c - 8 - 7) / 8) + 8 →
          m2 a = σ a ∧ σ a < 256 := by
        intro a ha1 ha2
        have hout : m2 a = m a := by
          rw [hm2, writeWord_spec8, if_neg (by omega)]
        rw [hout]
        exact hσ a (by omega) (by omega)
      have hsafe2 : d + 8 ≤ s + 8 + 8 ∨
          s + 8 + 8 * ((c - 8 - 7) / 8) + 8 ≤ d + 8 := by omega
      rw [ih (c - 8) (by omega) m2 σ (d + 8) (s + 8) dist
        (readWord m (s + 8)) hd0 hd8
        (fun j _ hj => hnx j hj) hnxlt hσ2 hsafe2 x]
      by_cases h1 : d + 8 ≤ x ∧ x < d + 8 + 8 * ((c - 8 - 7) / 8)
      · rw [if_pos h1, if_pos (by omega)]
        congr 1
        omega
      · rw [if_neg h1]
        by_cases h2 : d ≤ x ∧ x < d + 8
        · rw [hm2, writeWord_spec8, if_pos h2, if_pos (by omega)]
          rw [mergeWord_byte (readWord m (s + 8)) hA hd0 hd8
            (by omega : x - d < 8)]
          by_cases h3 : x - d < 8 - dist
          · rw [if_pos h3, hnext (dist + (x - d)) (by omega) (by omega)]
            congr 1
            omega
          · rw [if_neg h3, hnx (x - d - (8 - dist)) (by omega)]
            congr 1
            omega
        · rw [hm2, writeWord_spec8, if_neg h2, if_neg (by omega)]

theorem and_mask_mod (x : Nat) : x &&& mask = x % 8 := by
  have e : mask = 2 ^ 3 - 1 := rfl
  rw [e, Nat.and_pow_two_sub_one_eq_mod]

set_option maxHeartbeats 1000000 in
/-- Master pointwise description of `__memcpy`: provided the copy
direction is safe (destination at or below the source, or fully disjoint
regions) and memory is well formed, the destination range receives
exactly the original source bytes and nothing else changes.  This covers
both configurations of `CONFIG_HAVE_EFFICIENT_UNALIGNED_ACCESS`. -/
theorem memcpy_mem (eff : Bool) (m : Mem) (d s c : Nat) (hm : ByteMem m)
    (hsafe : d ≤ s ∨ s + c ≤ d) (x : Nat) :
    (memcpy eff m d s c).1 x =
    if d ≤ x ∧ x < d + c then m (s + (x - d)) else m x := by
  show copy_remainder (memcpyPhases eff m d s c).mem
    (memcpyPhases eff m d s c).d (memcpyPhases eff m d s c).s
    (memcpyPhases eff m d s c).c x = _
  by_cases hc : c < MIN_THRESHOLD
  · have hphase : memcpyPhases eff m d s c = ⟨m, d, s, c⟩ := by
      unfold memcpyPhases
      rw [if_pos hc]
    rw [hphase]
    exact copy_remainder_spec c m d s hsafe x
  · have hc16 : 16 ≤ c := by
      have h16 : MIN_THRESHOLD = 16 := rfl
      omega
    cases eff with
    | true =>
      have hphase : memcpyPhases true m d s c = wordCopyLoop m d s c := by
        unfold memcpyPhases
        rw [if_neg hc]
        rfl
      rw [hphase]
      obtain ⟨hpd, hps, hpc, _⟩ : (wordCopyLoop m d s c).d = d + 8 * (c / 8) ∧
          (wordCopyLoop m d s c).s = s + 8 * (c / 8) ∧
          (wordCopyLoop m d s c).c = c % 8 ∧ True :=
        ⟨(wordLoopF_parts c c (le_refl c) m d s).1,
         (wordLoopF_parts c c (le_refl c) m d s).2.1,
         (wordLoopF_parts c c (le_refl c) m d s).2.2.1, trivial⟩
      have hMEM : ∀ y, (wordCopyLoop m d s c).mem y =
          if d ≤ y ∧ y < d + 8 * (c / 8) then m (s + (y - d)) else m y :=
        wordLoopF_spec c c (le_refl c) m d s hm hsafe
      rw [hpd, hps, hpc,
        copy_remainder_spec (c % 8) _ (d + 8 * (c / 8)) (s + 8 * (c / 8))
          (by omega)]
      simp only [hMEM]
      split_ifs <;> (congr 1 <;> omega)
    | false =>
      have ha8 : (8 - d % 8) % 8 < 8 := by omega
      set a := (8 - d % 8) % 8 with hadef
      have hac : a ≤ c := by omega
      set mA := copy_remainder m d s a with hmAdef
      have hmA : ByteMem mA := ByteMem_copy_remainder a m d s hm
      have hA : ∀ y, mA y = if d ≤ y ∧ y < d + a then m (s + (y - d)) else m y :=
        copy_remainder_spec a m d s (by omega)
      have hst1 : alignLoop m d s c = ⟨mA, d + a, s + a, c - a⟩ :=
        alignLoop_spec c m d s (by omega)
      have hphase : memcpyPhases false m d s c =
          memcpyRest ⟨mA, d + a, s + a, c - a⟩ ((s + a) &&& mask) := by
        unfold memcpyPhases
        rw [if_neg hc, hst1]
        rfl
      rw [and_mask_mod] at hphase
      set distv := (s + a) % 8 with hdistv
      by_cases hdz : distv = 0
      · rw [hdz] at hphase
        have hrest : memcpyRest ⟨mA, d + a, s + a, c - a⟩ 0 =
            wordCopyLoop mA (d + a) (s + a) (c - a) := by
          unfold memcpyRest
          rw [if_neg (fun h => h rfl)]
        rw [hphase, hrest]
        obtain ⟨hpd, hps, hpc, _⟩ :
            (wordCopyLoop mA (d + a) (s + a) (c - a)).d =
              (d + a) + 8 * ((c - a) / 8) ∧
            (wordCopyLoop mA (d + a) (s + a) (c - a)).s =
              (s + a) + 8 * ((c - a) / 8) ∧
            (wordCopyLoop mA (d + a) (s + a) (c - a)).c = (c - a) % 8 ∧ True :=
          ⟨(wordLoopF_parts (c-a) (c-a) (le_refl _) mA (d+a) (s+a)).1,
           (wordLoopF_parts (c-a) (c-a) (le_refl _) mA (d+a) (s+a)).2.1,
           (wordLoopF_parts (c-a) (c-a) (le_refl _) mA (d+a) (s+a)).2.2.1,
           trivial⟩
        have hMEM : ∀ y, (wordCopyLoop mA (d + a) (s + a) (c - a)).mem y =
            if d + a ≤ y ∧ y < d + a + 8 * ((c - a) / 8)
              then mA (s + a + (y - (d + a))) else mA y :=
          wordLoopF_spec (c-a) (c-a) (le_refl _) mA (d+a) (s+a) hmA (by omega)
        rw [hpd, hps, hpc,
          copy_remainder_spec ((c - a) % 8) _ _ _ (by omega)]
        simp only [hMEM, hA]
        split_ifs <;> (congr 1 <;> omega)
      · -- the shifted word copy
        have hd0 : 0 < distv := by omega
        have hd8 : distv < 8 := by omega
        set s2 := s + a - distv with hs2
        set nx0 := readWord mA s2 with hnx0
        set ST := shiftLoop mA (d + a) s2 (c - a) distv nx0 with hSTdef
        have hrest : memcpyRest ⟨mA, d + a, s + a, c - a⟩ distv =
            ⟨ST.mem, ST.d, ST.s + distv, ST.c⟩ := by
          unfold memcpyRest
          rw [if_pos hdz]
        rw [hphase, hrest]
        obtain ⟨hpd, hps, hpc, _⟩ :
            ST.d = (d + a) + 8 * ((c - a - 7) / 8) ∧
            ST.s = s2 + 8 * ((c - a - 7) / 8) ∧
            ST.c = (c - a) - 8 * ((c - a - 7) / 8) ∧ True :=
          ⟨(shiftLoopF_parts (c-a) (c-a) (le_refl _) mA (d+a) s2 distv nx0).1,
           (shiftLoopF_parts (c-a) (c-a) (le_refl _) mA (d+a) s2 distv nx0).2.1,
           (shiftLoopF_parts (c-a) (c-a) (le_refl _) mA (d+a) s2 distv nx0).2.2.1,
           trivial⟩
        have hnext : ∀ j, distv ≤ j → j < 8 →
            nx0 / 256 ^ j % 256 = m (s2 + j) := by
          intro j hj1 hj2
          have he : nx0 / 256 ^ j % 256 = mA (s2 + j) :=
            readWord_extract (fun i _ => hmA (s2 + i)) hj2
          rw [he, hA (s2 + j), if_neg (by omega)]
        have hAlt : nx0 < 256 ^ 8 := readWord_lt8 (fun i _ => hmA (s2 + i))
        have hσ : ∀ y, s2 + 8 ≤ y → y < s2 + 8 * ((c - a - 7) / 8) + 8 →
            mA y = m y ∧ m y < 256 := by
          intro y hy1 hy2
          refine ⟨?_, hm y⟩
          rw [hA y, if_neg (by omega)]
        have hsafe2 : d + a ≤ s2 + 8 ∨ s2 + 8 * ((c - a - 7) / 8) + 8 ≤ d + a := by
          omega
        have hMEM : ∀ y, ST.mem y =
            if d + a ≤ y ∧ y < d + a + 8 * ((c - a - 7) / 8)
              then m (s2 + distv + (y - (d + a))) else mA y :=
          shiftLoopF_spec (c-a) (c-a) (le_refl _) mA m (d+a) s2 distv nx0
            hd0 hd8 hnext hAlt hσ hsafe2
        clear_value ST nx0 s2 distv mA a
        rw [hpd, hps, hpc]
        have hrestore : s2 + 8 * ((c - a - 7) / 8) + distv =
            (s + a) + 8 * ((c - a - 7) / 8) := by omega
        have hcnd : (d + a) + 8 * ((c - a - 7) / 8) ≤
              (s + a) + 8 * ((c - a - 7) / 8) ∨
            ((s + a) + 8 * ((c - a - 7) / 8)) +
              ((c - a) - 8 * ((c - a - 7) / 8)) ≤
              (d + a) + 8 * ((c - a - 7) / 8) := by omega
        rw [hrestore,
          copy_remainder_spec ((c - a) - 8 * ((c - a - 7) / 8)) _ _ _ hcnd]
        simp only [hMEM, hA]
        split_ifs <;> (congr 1 <;> omega)

/-- Master pointwise description of `__memmove`: with no precondition at
all on the overlap of the two regions, the destination range receives
the bytes originally held by the source range. -/
theorem memmove_mem (eff : Bool) (m : Mem) (d s c : Nat) (hm : ByteMem m)
    (x : Nat) :
    (memmove eff m d s c).1 x =
    if d ≤ x ∧ x < d + c then m (s + (x - d)) else m x := by
  unfold memmove
  by_cases h1 : d < s ∨ s + c ≤ d
  · rw [if_pos h1]
    exact memcpy_mem eff m d s c hm (by omega) x
  · rw [if_neg h1]
    by_cases h2 : s < d
    · rw [if_pos h2]
      show backwardCopy m d s c x = _
      exact backwardCopy_spec c m d s (by omega) x
    · rw [if_neg h2]
      show m x = _
      have hds : d = s := by omega
      subst hds
      by_cases h3 : d ≤ x ∧ x < d + c
      · rw [if_pos h3]
        congr 1
        omega
      · rw [if_neg h3]

/-- Pointer/count/footprint facts about the pre-remainder phases of
`__memcpy`, with no well-formedness or aliasing assumption: the running
destination pointer only advances, destination pointer plus remaining
count is invariant, the remainder loop starts with fewer than
`bytes_long + mask` bytes whenever the word-wise phase was entered, and
nothing outside `[dst, dst + count)` is written. -/
theorem memcpyPhases_parts (eff : Bool) (m : Mem) (d s c : Nat) :
    d ≤ (memcpyPhases eff m d s c).d ∧
    (memcpyPhases eff m d s c).d + (memcpyPhases eff m d s c).c = d + c ∧
    (MIN_THRESHOLD ≤ c → (memcpyPhases eff m d s c).c < bytes_long + mask) ∧
    (∀ x, x < d ∨ d + c ≤ x → (memcpyPhases eff m d s c).mem x = m x) := by
  have h16 : MIN_THRESHOLD = 16 := rfl
  have hb15 : bytes_long + mask = 15 := rfl
  by_cases hc : c < MIN_THRESHOLD
  · have hphase : memcpyPhases eff m d s c = ⟨m, d, s, c⟩ := by
      unfold memcpyPhases
      rw [if_pos hc]
    rw [hphase]
    exact ⟨le_refl d, rfl, fun h => by omega, fun x _ => rfl⟩
  · have hc16 : 16 ≤ c := by omega
    cases eff with
    | true =>
      have hphase : memcpyPhases true m d s c = wordCopyLoop m d s c := by
        unfold memcpyPhases
        rw [if_neg hc]
        rfl
      rw [hphase]
      have hwc : wordCopyLoop m d s c = wordLoopF c m d s c := rfl
      rw [hwc]
      obtain ⟨pd, ps, pc, pm⟩ := wordLoopF_parts c c (le_refl c) m d s
      refine ⟨by rw [pd]; omega, by rw [pd, pc]; omega,
        fun _ => by rw [pc]; omega, fun x hx => pm x (by omega)⟩
    | false =>
      have ha8 : (8 - d % 8) % 8 < 8 := by omega
      set a := (8 - d % 8) % 8 with hadef
      have hac : a ≤ c := by omega
      set mA := copy_remainder m d s a with hmAdef
      have hst1 : alignLoop m d s c = ⟨mA, d + a, s + a, c - a⟩ :=
        alignLoop_spec c m d s (by omega)
      have hphase : memcpyPhases false m d s c =
          memcpyRest ⟨mA, d + a, s + a, c - a⟩ ((s + a) &&& mask) := by
        unfold memcpyPhases
        rw [if_neg hc, hst1]
        rfl
      rw [and_mask_mod] at hphase
      set distv := (s + a) % 8 with hdistv
      by_cases hdz : distv = 0
      · rw [hdz] at hphase
        have hrest : memcpyRest ⟨mA, d + a, s + a, c - a⟩ 0 =
            wordCopyLoop mA (d + a) (s + a) (c - a) := by
          unfold memcpyRest
          rw [if_neg (fun h => h rfl)]
        rw [hphase, hrest]
        have hwc : wordCopyLoop mA (d + a) (s + a) (c - a) =
            wordLoopF (c - a) mA (d + a) (s + a) (c - a) := rfl
        rw [hwc]
        obtain ⟨pd, ps, pc, pm⟩ :=
          wordLoopF_parts (c - a) (c - a) (le_refl _) mA (d + a) (s + a)
        refine ⟨by rw [pd]; omega, by rw [pd, pc]; omega,
          fun _ => by rw [pc]; omega, ?_⟩
        intro x hx
        rw [pm x (by omega), hmAdef, copy_remainder_frame a m d s x (by omega)]
      · set s2 := s + a - distv with hs2
        set nx0 := readWord mA s2 with hnx0
        set ST := shiftLoop mA (d + a) s2 (c - a) distv nx0 with hSTdef
        have hrest : memcpyRest ⟨mA, d + a, s + a, c - a⟩ distv =
            ⟨ST.mem, ST.d, ST.s + distv, ST.c⟩ := by
          unfold memcpyRest
          rw [if_pos hdz]
        rw [hphase, hrest]
        obtain ⟨pd, ps, pc, pm⟩ :
            ST.d = (d + a) + 8 * ((c - a - 7) / 8) ∧
            ST.s = s2 + 8 * ((c - a - 7) / 8) ∧
            ST.c = (c - a) - 8 * ((c - a - 7) / 8) ∧
            (∀ x, x < d + a ∨ (d + a) + (c - a) ≤ x → ST.mem x = mA x) :=
          shiftLoopF_parts (c - a) (c - a) (le_refl _) mA (d + a) s2 distv nx0
        refine ⟨by rw [pd]; omega, by rw [pd, pc]; omega,
          fun _ => by rw [pc]; omega, ?_⟩
        intro x hx
        rw [pm x (by omega), hmAdef, copy_remainder_frame a m d s x (by omega)]

/-- `__memcpy` writes nothing outside `[dst, dst + count)`. -/
theorem memcpy_frame (eff : Bool) (m : Mem) (d s c x : Nat)
    (hx : x < d ∨ d + c ≤ x) : (memcpy eff m d s c).1 x = m x := by
  obtain ⟨h1, h2, _, h4⟩ := memcpyPhases_parts eff m d s c
  show copy_remainder (memcpyPhases eff m d s c).mem
    (memcpyPhases eff m d s c).d (memcpyPhases eff m d s c).s
    (memcpyPhases eff m d s c).c x = m x
  rw [copy_remainder_frame _ _ _ _ x (by omega), h4 x hx]

/-- `__memmove` writes nothing outside `[dst, dst + count)`. -/
theorem memmove_frame (eff : Bool) (m : Mem) (d s c x : Nat)
    (hx : x < d ∨ d + c ≤ x) : (memmove eff m d s c).1 x = m x := by
  unfold memmove
  by_cases h1 : d < s ∨ s + c ≤ d
  · rw [if_pos h1]
    exact memcpy_frame eff m d s c x hx
  · rw [if_neg h1]
    by_cases h2 : s < d
    · rw [if_pos h2]
      exact backwardCopy_frame c m d s x hx
    · rw [if_neg h2]

/-- The instrumented shifted loop computes the same final state as the
real one (the trace is ghost state). -/
theorem shiftLoopTF_fst : ∀ (f : Nat) (m : Mem) (d s c dist next : Nat),
    (shiftLoopTF f m d s c dist next).1 = shiftLoopF f m d s c dist next := by
  intro f
  induction f with
  | zero => intro m d s c dist next; rfl
  | succ f ih =>
    intro m d s c dist next
    have hunfT : shiftLoopTF (f+1) m d s c dist next =
        if c < bytes_long + mask then ((⟨m, d, s, c⟩ : St), ([] : List Nat))
        else
          ((shiftLoopTF f
            (writeWord m d (next >>> (dist * 8) |||
              readWord m (s + bytes_long) <<< ((bytes_long - dist) * 8)))
            (d + bytes_long) (s + bytes_long) (c - bytes_long) dist
            (readWord m (s + bytes_long))).1,
           ((List.range bytes_long).map (fun j => s + bytes_long + j)) ++
            (shiftLoopTF f
              (writeWord m d (next >>> (dist * 8) |||
                readWord m (s + bytes_long) <<< ((bytes_long - dist) * 8)))
              (d + bytes_long) (s + bytes_long) (c - bytes_long) dist
              (readWord m (s + bytes_long))).2) := rfl
    have hunfF : shiftLoopF (f+1) m d s c dist next =
        if c < bytes_long + mask then (⟨m, d, s, c⟩ : St)
        else shiftLoopF f
          (writeWord m d (next >>> (dist * 8) |||
            readWord m (s + bytes_long) <<< ((bytes_long - dist) * 8)))
          (d + bytes_long) (s + bytes_long) (c - bytes_long) dist
          (readWord m (s + bytes_long)) := rfl
    rw [hunfT, hunfF]
    by_cases hsmall : c < bytes_long + mask
    · rw [if_pos hsmall, if_pos hsmall]
    · rw [if_neg hsmall, if_neg hsmall]
      exact ih _ _ _ _ _ _

/-- Every address recorded by the instrumented shifted loop lies in
`[s + 8, s + c]` (in the loop's own coordinates, where `s` is the
stepped-back, word-aligned source pointer and `c` the remaining count at
loop entry). -/
theorem shiftLoopTF_reads_le : ∀ (f c : Nat), c ≤ f →
    ∀ (m : Mem) (d s dist next : Nat),
    ∀ y ∈ (shiftLoopTF f m d s c dist next).2, s + 8 ≤ y ∧ y ≤ s + c := by
  intro f
  induction f with
  | zero => intro c hc m d s dist next y hy; cases hy
  | succ f ih =>
    intro c hc m d s dist next y hy
    have hbl : bytes_long = 8 := rfl
    have hmask : mask = 7 := rfl
    have hunfT : shiftLoopTF (f+1) m d s c dist next =
        if c < bytes_long + mask then ((⟨m, d, s, c⟩ : St), ([] : List Nat))
        else
          ((shiftLoopTF f
            (writeWord m d (next >>> (dist * 8) |||
              readWord m (s + bytes_long) <<< ((bytes_long - dist) * 8)))
            (d + bytes_long) (s + bytes_long) (c - bytes_long) dist
            (readWord m (s + bytes_long))).1,
           ((List.range bytes_long).map (fun j => s + bytes_long + j)) ++
            (shiftLoopTF f
              (writeWord m d (next >>> (dist * 8) |||
                readWord m (s + bytes_long) <<< ((bytes_long - dist) * 8)))
              (d + bytes_long) (s + bytes_long) (c - bytes_long) dist
              (readWord m (s + bytes_long))).2) := rfl
    rw [hunfT] at hy
    by_cases hsmall : c < bytes_long + mask
    · rw [if_pos hsmall] at hy
      cases hy
    · rw [if_neg hsmall] at hy
      rw [hbl, hmask] at hsmall
      rcases List.mem_append.1 hy with h | h
      · obtain ⟨j, hj, hjy⟩ := List.mem_map.1 h
        have hj8 : j < bytes_long := List.mem_range.1 hj
        rw [hbl] at hj8
        rw [hbl] at hjy
        omega
      · have hrec := ih (c - bytes_long) (by rw [hbl]; omega) _ _ _ _ _ y h
        rw [hbl] at hrec
        omega

/-- C1: for every count, every pair of non-overlapping regions and every
pair of source/destination alignments (the addresses `dst` and `src` are
arbitrary, so their residues modulo the word size are arbitrary), after
`__memcpy` the destination bytes `dst[0..count)` are exactly the bytes
originally at `src[0..count)`, in both configurations of
`CONFIG_HAVE_EFFICIENT_UNALIGNED_ACCESS`. -/
theorem memcpy_copies_nonoverlapping (eff : Bool) (m : Mem)
    (dst src count : Nat) (hm : ByteMem m)
    (hdisj : dst + count ≤ src ∨ src + count ≤ dst) :
    ∀ i, i < count → (memcpy eff m dst src count).1 (dst + i) = m (src + i) := by
  intro i hi
  rw [memcpy_mem eff m dst src count hm (by omega) (dst + i),
    if_pos (by omega)]
  congr 1
  omega

theorem memcpy_copies_nonoverlapping_witness :
    ByteMem byteIdMem ∧ (100 + 20 ≤ 0 ∨ 0 + 20 ≤ 100) ∧
    (memcpy false byteIdMem 100 0 20).1 (100 + 5) = byteIdMem (0 + 5) :=
  ⟨byteIdMem_lt, Or.inr (by decide),
   memcpy_copies_nonoverlapping false byteIdMem 100 0 20 byteIdMem_lt
     (Or.inr (by decide)) 5 (by decide)⟩

/-- C2: for every count and every overlap relationship of the two
regions (`dst` and `src` arbitrary, so every offset between them),
after `__memmove` the destination bytes `dst[0..count)` are the bytes
originally at `src[0..count)` — i.e. as if the whole source were read
before any destination byte is written. -/
theorem memmove_copies_any_overlap (eff : Bool) (m : Mem)
    (dst src count : Nat) (hm : ByteMem m) :
    ∀ i, i < count →
    (memmove eff m dst src count).1 (dst + i) = m (src + i) := by
  intro i hi
  rw [memmove_mem eff m dst src count hm (dst + i), if_pos (by omega)]
  congr 1
  omega

theorem memmove_copies_any_overlap_witness :
    ByteMem byteIdMem ∧
    (memmove false byteIdMem 13 10 20).1 (13 + 0) = byteIdMem (10 + 0) :=
  ⟨byteIdMem_lt,
   memmove_copies_any_overlap false byteIdMem 13 10 20 byteIdMem_lt 0
     (by decide)⟩

/-- C3: `__memmove` delegates to `memcpy` exactly when `dest < src` or
`src + count <= dest`, and in the remaining overlapping case
(`src < dest < src + count`) it performs the byte-by-byte backward copy
from the last byte of each region down to the first. -/
theorem memmove_branch_structure (eff : Bool) (m : Mem)
    (dst src count : Nat) :
    ((dst < src ∨ src + count ≤ dst) →
      memmove eff m dst src count = memcpy eff m dst src count) ∧
    (src < dst ∧ dst < src + count →
      memmove eff m dst src count = (backwardCopy m dst src count, dst)) := by
  constructor
  · intro h
    unfold memmove
    rw [if_pos h]
  · intro h
    unfold memmove
    rw [if_neg (by omega), if_pos h.1]

theorem memmove_branch_structure_witness :
    memmove false byteIdMem 0 10 5 = memcpy false byteIdMem 0 10 5 ∧
    memmove false byteIdMem 10 5 8 = (backwardCopy byteIdMem 10 5 8, 10) :=
  ⟨(memmove_branch_structure false byteIdMem 0 10 5).1 (Or.inl (by decide)),
   (memmove_branch_structure false byteIdMem 10 5 8).2
     ⟨by decide, by decide⟩⟩

/-- C4: the shifted word-copy loop, entered with the source pointer
already stepped back by `distance` bytes (`s` here; the pre-step-back
pointer is `s + distance`) and `next` holding the word snapshot at `s`,
runs while at least `bytes_long + mask` bytes remain, advancing both
pointers and decrementing `count` by `bytes_long` per iteration — so
that adding `distance` back to the final source pointer restores the
original offset — and, thanks to the little-endian byte order, the word
it assembles as `last >> (distance*8) | next << ((bytes_long-distance)*8)`
deposits exactly the source bytes at the destination for every word it
writes. -/
theorem shiftLoop_shifted_copy (m : Mem) (d s c dist next : Nat)
    (hm : ByteMem m) (hd0 : 0 < dist) (hd8 : dist < bytes_long)
    (hnext : next = readWord m s)
    (hsep : d ≤ s + bytes_long ∨ s + c < d) :
    (shiftLoop m d s c dist next).d =
      d + bytes_long * ((c - mask) / bytes_long) ∧
    (shiftLoop m d s c dist next).s + dist =
      (s + dist) + bytes_long * ((c - mask) / bytes_long) ∧
    (shiftLoop m d s c dist next).c =
      c - bytes_long * ((c - mask) / bytes_long) ∧
    ∀ i, i < bytes_long * ((c - mask) / bytes_long) →
      (shiftLoop m d s c dist next).mem (d + i) = m ((s + dist) + i) := by
  have hbl : bytes_long = 8 := rfl
  have hmsk : mask = 7 := rfl
  rw [hbl] at hd8 hsep
  obtain ⟨pd, ps, pc, _⟩ :
      (shiftLoop m d s c dist next).d = d + 8 * ((c - 7) / 8) ∧
      (shiftLoop m d s c dist next).s = s + 8 * ((c - 7) / 8) ∧
      (shiftLoop m d s c dist next).c = c - 8 * ((c - 7) / 8) ∧
      (∀ x, x < d ∨ d + c ≤ x →
        (shiftLoop m d s c dist next).mem x = m x) :=
    shiftLoopF_parts c c (le_refl c) m d s dist next
  have hMEM : ∀ x, (shiftLoop m d s c dist next).mem x =
      if d ≤ x ∧ x < d + 8 * ((c - 7) / 8)
        then m (s + dist + (x - d)) else m x :=
    shiftLoopF_spec c c (le_refl c) m m d s dist next hd0 hd8
      (fun j _ hj => by
        rw [hnext]
        exact readWord_extract (fun i _ => hm (s + i)) hj)
      (by rw [hnext]; exact readWord_lt8 (fun i _ => hm (s + i)))
      (fun y _ _ => ⟨rfl, hm y⟩) (by omega)
  rw [hbl, hmsk]
  refine ⟨pd, by rw [ps]; omega, pc, ?_⟩
  intro i hi
  rw [hMEM (d + i), if_pos (by omega)]
  congr 1
  omega

theorem shiftLoop_shifted_copy_witness :
    ByteMem byteIdMem ∧ 0 < 3 ∧ 3 < bytes_long ∧
    (100 ≤ 0 + bytes_long ∨ 0 + 16 < 100) ∧
    (shiftLoop byteIdMem 100 0 16 3 (readWord byteIdMem 0)).mem (100 + 2) =
      byteIdMem ((0 + 3) + 2) :=
  ⟨byteIdMem_lt, by decide, by decide, Or.inr (by decide),
   (shiftLoop_shifted_copy byteIdMem 100 0 16 3 (readWord byteIdMem 0)
     byteIdMem_lt (by decide) (by decide) rfl
     (Or.inr (by decide))).2.2.2 2 (by decide)⟩

/-- C5 (counterexample): an execution of `__memcpy` that takes the
word-wise phase (`count = 16 = MIN_THRESHOLD`, destination aligned,
source offset 1, unaligned-access-inefficient configuration) reaches the
final byte-at-a-time remainder loop with `count = 8 = bytes_long` bytes
still to copy — not strictly fewer than `bytes_long`. -/
theorem memcpy_remainder_count_counterexample :
    MIN_THRESHOLD ≤ 16 ∧
    ¬ ((memcpyPhases false byteIdMem 0 1 16).c < bytes_long) := by
  decide

/-- C5 (amended): in every execution of `__memcpy` that takes a
word-wise phase (`count ≥ MIN_THRESHOLD`), the remainder loop starts
with strictly fewer than `bytes_long + mask` bytes still to copy (the
shifted path's loop guard); `bytes_long` alone is not an upper bound. -/
theorem memcpy_remainder_count_lt (eff : Bool) (m : Mem)
    (dst src count : Nat) (h : MIN_THRESHOLD ≤ count) :
    (memcpyPhases eff m dst src count).c < bytes_long + mask :=
  (memcpyPhases_parts eff m dst src count).2.2.1 h

theorem memcpy_remainder_count_lt_witness :
    MIN_THRESHOLD ≤ 16 ∧
    (memcpyPhases false byteIdMem 0 1 16).c < bytes_long + mask :=
  ⟨by decide, memcpy_remainder_count_lt false byteIdMem 0 1 16 (by decide)⟩

/-- C6: whenever `count` is below the small-copy threshold of two
machine words, `__memcpy` performs no alignment fixup and no word-wise
transfer: it is exactly the plain ascending byte-by-byte copy of
`count` bytes (the `copy_remainder` loop), in both configurations. -/
theorem memcpy_small_byte_copy (eff : Bool) (m : Mem)
    (dst src count : Nat) (hsmall : count < MIN_THRESHOLD) :
    memcpy eff m dst src count = (copy_remainder m dst src count, dst) := by
  have hphase : memcpyPhases eff m dst src count = ⟨m, dst, src, count⟩ := by
    unfold memcpyPhases
    rw [if_pos hsmall]
  show (copy_remainder (memcpyPhases eff m dst src count).mem
    (memcpyPhases eff m dst src count).d (memcpyPhases eff m dst src count).s
    (memcpyPhases eff m dst src count).c, dst) = _
  rw [hphase]

theorem memcpy_small_byte_copy_witness :
    15 < MIN_THRESHOLD ∧
    memcpy false byteIdMem 40 3 15 = (copy_remainder byteIdMem 40 3 15, 40) :=
  ⟨by decide, memcpy_small_byte_copy false byteIdMem 40 3 15 (by decide)⟩

/-- C7: when `CONFIG_HAVE_EFFICIENT_UNALIGNED_ACCESS` is set, `__memcpy`
does no byte-wise destination-alignment fixup and `distance` stays 0 for
every input, so the shifted-word-copy branch is never taken: the phase
before the remainder loop is either the small-copy skip or the direct
word-load/word-store loop (which runs while `count ≥ bytes_long`). -/
theorem memcpy_eff_unaligned_path (m : Mem) (dst src count : Nat) :
    memcpyPhases true m dst src count =
      if count < MIN_THRESHOLD then ⟨m, dst, src, count⟩
      else wordCopyLoop m dst src count := by
  by_cases h : count < MIN_THRESHOLD
  · rw [if_pos h]
    unfold memcpyPhases
    rw [if_pos h]
  · rw [if_neg h]
    unfold memcpyPhases
    rw [if_neg h]
    rfl

/-- C8: with `count = 0`, both `__memcpy` and `__memmove` leave the
whole memory unchanged and return the destination start address. -/
theorem zero_count_noop (eff : Bool) (m : Mem) (dst src : Nat) :
    memcpy eff m dst src 0 = (m, dst) ∧ memmove eff m dst src 0 = (m, dst) := by
  constructor
  · rfl
  · unfold memmove
    rw [if_pos (show dst < src ∨ src + 0 ≤ dst by omega)]
    rfl

/-- C9: in the shifted word-copy path of `__memcpy` (taken when, after
the alignment fixup, the source is still misaligned), every source word
read — the initial `next = s.as_ulong[0]` snapshot at the stepped-back
pointer and each look-ahead `next = s.as_ulong[1]` read under the loop
guard `count >= bytes_long + mask` — touches only byte addresses
strictly below `src + count`, the end of the original source region. -/
theorem memcpy_shift_reads_below_src_end (m : Mem) (dst src count : Nat)
    (hc : MIN_THRESHOLD ≤ count)
    (hdz : (alignLoop m dst src count).s &&& mask ≠ 0) :
    ∀ y ∈ shiftReadAddrs m dst src count, y < src + count := by
  have h16 : MIN_THRESHOLD = 16 := rfl
  have hbl : bytes_long = 8 := rfl
  have ha8 : (8 - dst % 8) % 8 < 8 := by omega
  set a := (8 - dst % 8) % 8 with hadef
  have hst1 : alignLoop m dst src count =
      ⟨copy_remainder m dst src a, dst + a, src + a, count - a⟩ :=
    alignLoop_spec count m dst src (by omega)
  replace hdz : (src + a) % 8 ≠ 0 := by
    rw [hst1, and_mask_mod] at hdz
    exact hdz
  intro y hy
  unfold shiftReadAddrs at hy
  simp only [hst1, and_mask_mod] at hy
  rcases List.mem_append.1 hy with h | h
  · obtain ⟨j, hj, hjy⟩ := List.mem_map.1 h
    have hj8 : j < bytes_long := List.mem_range.1 hj
    rw [hbl] at hj8
    omega
  · have hrec := shiftLoopTF_reads_le (count - a) (count - a) (le_refl _)
      _ _ _ _ _ y h
    omega

theorem memcpy_shift_reads_below_src_end_witness :
    MIN_THRESHOLD ≤ 16 ∧ (alignLoop byteIdMem 0 1 16).s &&& mask ≠ 0 ∧
    0 < 1 + 16 :=
  ⟨by decide, by decide,
   memcpy_shift_reads_below_src_end byteIdMem 0 1 16 (by decide) (by decide)
     0 (by decide)⟩

/-- C10: `__memcpy` and `__memmove` write only inside
`dst[0..count)`; every byte outside that destination range keeps its
original value, for every call (no aliasing or well-formedness
assumption needed). -/
theorem copy_move_frame (eff : Bool) (m : Mem) (dst src count x : Nat)
    (hx : x < dst ∨ dst + count ≤ x) :
    (memcpy eff m dst src count).1 x = m x ∧
    (memmove eff m dst src count).1 x = m x :=
  ⟨memcpy_frame eff m dst src count x hx,
   memmove_frame eff m dst src count x hx⟩

theorem copy_move_frame_witness :
    ((99:Nat) < 100 ∨ 100 + 20 ≤ 99) ∧
    (memcpy false byteIdMem 100 0 20).1 99 = byteIdMem 99 ∧
    (memmove false byteIdMem 100 0 20).1 99 = byteIdMem 99 :=
  ⟨Or.inl (by decide),
   (copy_move_frame false byteIdMem 100 0 20 99 (Or.inl (by decide))).1,
   (copy_move_frame false byteIdMem 100 0 20 99 (Or.inl (by decide))).2⟩

end RiscvString
